import Mathlib

/-!
Shallow embedding of the myagv client pipeline:
  * src/client/motor_controller.py  (MotorController.execute_command, stop)
  * src/client/agv_client.py        (check_safety, process_lidar_data, the
                                     command-interception and oracle-timeout
                                     logic of run_agv_client)
  * src/client/lidar_driver.py      (LidarDriver._parse_next_packet and the
                                     ingestion step of _update_loop)
  * src/client/check_front_dist.py  (get_sector_info)
Distances and angles are modelled as rationals; Python dicts as association
lists or as functions into Option.
-/

set_option maxHeartbeats 1000000

namespace Agv

/-- Command kinds recognised by MotorController.execute_command; UNKNOWN
stands for any other command string (the else branch). -/
inductive CmdKind
  | MOVE_FORWARD
  | MOVE_BACKWARD
  | MOVE_LEFT
  | MOVE_RIGHT
  | TURN_LEFT
  | TURN_RIGHT
  | STOP
  | UNKNOWN
deriving DecidableEq, Repr

/-- Calls the motor controller issues to the MyAgv drive interface. -/
inductive MotorCall
  | goAhead (speed : Int)
  | retreat (speed : Int)
  | panLeft (speed : Int)
  | panRight (speed : Int)
  | ccwRotation (speed : Int)
  | cwRotation (speed : Int)
  | stopCall
deriving DecidableEq, Repr

/-- Command dictionary handed to execute_command: command string, speed and
duration (cmd_data.get("duration", 0): an absent duration is 0). -/
structure CmdData where
  command : CmdKind
  speed : Int
  duration : ℚ
deriving DecidableEq, Repr

/-- The dispatch table of MotorController.execute_command: which drive call a
command kind issues (none for the unknown-command else branch). -/
def dispatch : CmdKind → Int → Option MotorCall
  | .MOVE_FORWARD, s => some (.goAhead s)
  | .MOVE_BACKWARD, s => some (.retreat s)
  | .MOVE_LEFT, s => some (.panLeft s)
  | .MOVE_RIGHT, s => some (.panRight s)
  | .TURN_LEFT, s => some (.ccwRotation s)
  | .TURN_RIGHT, s => some (.cwRotation s)
  | .STOP, _ => some .stopCall
  | .UNKNOWN, _ => none

/-- Speed carried by a directional drive call (none for a stop call). -/
def MotorCall.driveSpeed : MotorCall → Option Int
  | .goAhead s => some s
  | .retreat s => some s
  | .panLeft s => some s
  | .panRight s => some s
  | .ccwRotation s => some s
  | .cwRotation s => some s
  | .stopCall => none

/-- Trace of motor-interface calls made by MotorController.execute_command:
the dispatched drive call, followed by self.stop() exactly when duration > 0
and the command is not STOP; an unknown command returns before dispatching. -/
def executeCommand (c : CmdData) : List MotorCall :=
  match dispatch c.command c.speed with
  | none => []
  | some call =>
      if 0 < c.duration ∧ c.command ≠ CmdKind.STOP then [call, MotorCall.stopCall]
      else [call]

/-- Front sector test of check_safety: ang < 30 or ang > 330. -/
def frontCone (ang : Int) : Bool := ang < 30 || 330 < ang

/-- One iteration of the minimum-search loop in check_safety: skip
non-positive distances, track the minimum distance over the front cone. -/
def safetyStep (acc : Option ℚ) (p : Int × ℚ) : Option ℚ :=
  if p.2 ≤ 0 then acc
  else if frontCone p.1 then
    match acc with
    | none => some p.2
    | some m => if p.2 < m then some p.2 else acc
  else acc

/-- min_front_dist of check_safety: none plays the role of float inf. -/
def minFrontDist (scan : List (Int × ℚ)) : Option ℚ := scan.foldl safetyStep none

/-- check_safety of agv_client.py: true when safe.  An empty scan returns
true at once; otherwise safe means the front minimum is not below
safetyDist (the default argument at every call site is 150). -/
def checkSafety (scan : List (Int × ℚ)) (safetyDist : ℚ) : Bool :=
  if scan.isEmpty then true
  else
    match minFrontDist scan with
    | none => true
    | some m => decide (safetyDist ≤ m)

/-- The interception step of run_agv_client: when the cycle is unsafe and
the oracle proposed MOVE_FORWARD, the command is replaced by STOP; the
boolean records that the veto branch was taken. -/
def interceptCommand (isSafe : Bool) (cmd : CmdKind) : CmdKind × Bool :=
  if isSafe = false ∧ cmd = CmdKind.MOVE_FORWARD then (CmdKind.STOP, true)
  else (cmd, false)

/-- One receive-and-act step of run_agv_client: on a timeout
(oracleResponse = none) the except branch calls motor.stop(); otherwise the
intercepted command is executed. -/
def controlCycleStep (oracleResponse : Option CmdData) (isSafe : Bool) :
    List MotorCall :=
  match oracleResponse with
  | none => [MotorCall.stopCall]
  | some cd =>
      executeCommand ⟨(interceptCommand isSafe cd.command).1, cd.speed, cd.duration⟩

/-- C2: for every proposed command, evaluating safety against an empty scan
snapshot is fail-open: check_safety returns true and the interception step
returns the proposed command unmodified with no veto. -/
theorem fail_open_empty_scan (cmd : CmdKind) :
    checkSafety [] 150 = true ∧
    interceptCommand (checkSafety [] 150) cmd = (cmd, false) := by
  constructor
  · rfl
  · simp [checkSafety, interceptCommand]

/-- C4: when the oracle response does not arrive within the timeout, the
control cycle issues exactly a stop call to the motors and executes no
oracle command. -/
theorem oracle_timeout_issues_stop (isSafe : Bool) :
    controlCycleStep none isSafe = [MotorCall.stopCall] := rfl

/-- C5: a STOP command issues exactly one immediate stop call; any known
non-STOP command issues exactly one directional drive call at the given
speed, followed by exactly one stop call when duration > 0 and by no stop
call when the duration is zero or absent. -/
theorem execute_command_burst (c : CmdData) :
    (c.command = CmdKind.STOP → executeCommand c = [MotorCall.stopCall]) ∧
    (c.command ≠ CmdKind.STOP → c.command ≠ CmdKind.UNKNOWN →
      ∃ call, dispatch c.command c.speed = some call ∧
        call ≠ MotorCall.stopCall ∧
        call.driveSpeed = some c.speed ∧
        (0 < c.duration → executeCommand c = [call, MotorCall.stopCall]) ∧
        (c.duration ≤ 0 → executeCommand c = [call])) := by
  obtain ⟨k, s, d⟩ := c
  constructor
  · rintro rfl
    simp [executeCommand, dispatch]
  · intro h1 h2
    cases k with
    | STOP => exact absurd rfl h1
    | UNKNOWN => exact absurd rfl h2
    | MOVE_FORWARD =>
        refine ⟨.goAhead s, rfl, by simp, rfl, ?_, ?_⟩
        · intro hd; simp [executeCommand, dispatch, hd]
        · intro hd
          have hnd : ¬ (0 : ℚ) < d := not_lt.mpr hd
          simp [executeCommand, dispatch, hnd]
    | MOVE_BACKWARD =>
        refine ⟨.retreat s, rfl, by simp, rfl, ?_, ?_⟩
        · intro hd; simp [executeCommand, dispatch, hd]
        · intro hd
          have hnd : ¬ (0 : ℚ) < d := not_lt.mpr hd
          simp [executeCommand, dispatch, hnd]
    | MOVE_LEFT =>
        refine ⟨.panLeft s, rfl, by simp, rfl, ?_, ?_⟩
        · intro hd; simp [executeCommand, dispatch, hd]
        · intro hd
          have hnd : ¬ (0 : ℚ) < d := not_lt.mpr hd
          simp [executeCommand, dispatch, hnd]
    | MOVE_RIGHT =>
        refine ⟨.panRight s, rfl, by simp, rfl, ?_, ?_⟩
        · intro hd; simp [executeCommand, dispatch, hd]
        · intro hd
          have hnd : ¬ (0 : ℚ) < d := not_lt.mpr hd
          simp [executeCommand, dispatch, hnd]
    | TURN_LEFT =>
        refine ⟨.ccwRotation s, rfl, by simp, rfl, ?_, ?_⟩
        · intro hd; simp [executeCommand, dispatch, hd]
        · intro hd
          have hnd : ¬ (0 : ℚ) < d := not_lt.mpr hd
          simp [executeCommand, dispatch, hnd]
    | TURN_RIGHT =>
        refine ⟨.cwRotation s, rfl, by simp, rfl, ?_, ?_⟩
        · intro hd; simp [executeCommand, dispatch, hd]
        · intro hd
          have hnd : ¬ (0 : ℚ) < d := not_lt.mpr hd
          simp [executeCommand, dispatch, hnd]

/-- One protocol frame after the fixed-format reads of
LidarDriver._parse_next_packet: fsa and lsa are the two little-endian
16-bit angle codes, raws the ls decoded 16-bit distance samples. -/
structure RawPacket where
  fsa : ℕ
  lsa : ℕ
  raws : List ℕ
deriving DecidableEq, Repr

/-- Decoded start angle: (fsa >> 1) / 64.0. -/
def angleFSA (p : RawPacket) : ℚ := ((p.fsa / 2 : ℕ) : ℚ) / 64

/-- Decoded end angle: (lsa >> 1) / 64.0. -/
def angleLSA (p : RawPacket) : ℚ := ((p.lsa / 2 : ℕ) : ℚ) / 64

/-- Angular span of the packet, with a negative span bumped by 360. -/
def angleDiff (p : RawPacket) : ℚ :=
  if angleLSA p - angleFSA p < 0 then angleLSA p - angleFSA p + 360
  else angleLSA p - angleFSA p

/-- Angle of sample i before wrapping: linear interpolation between the
start and end angles by sample index (the start angle alone when the
packet has a single sample). -/
def interpAngle (p : RawPacket) (i : ℕ) : ℚ :=
  if 1 < p.raws.length then
    angleFSA p + (angleDiff p / ((p.raws.length : ℚ) - 1)) * i
  else angleFSA p

/-- The wrap step of the parser: a single subtraction of 360 when the
angle reaches 360. -/
def wrapAngle (a : ℚ) : ℚ := if 360 ≤ a then a - 360 else a

/-- Emitted angle of sample i. -/
def pointAngle (p : RawPacket) (i : ℕ) : ℚ := wrapAngle (interpAngle p i)

/-- Decoded distance of sample i in millimeters: raw value divided by 4.0. -/
def sampleDist (p : RawPacket) (i : ℕ) : ℚ := (p.raws.getD i 0 : ℚ) / 4

/-- Point list of one packet: each sample index yields its interpolated
angle and decoded distance, kept only when the distance exceeds 10. -/
def packetPoints (p : RawPacket) : List (ℚ × ℚ) :=
  (List.range p.raws.length).filterMap (fun i =>
    if 10 < sampleDist p i then some (pointAngle p i, sampleDist p i) else none)

lemma packetPoints_crossing_example :
    packetPoints ⟨44800, 1280, [100, 100, 100, 100]⟩ =
      [(350, 25), (1070/3, 25), (10/3, 25), (10, 25)] := by
  norm_num [packetPoints, sampleDist, pointAngle, interpAngle, angleFSA, angleLSA,
    angleDiff, wrapAngle, List.range_succ, List.getD, List.filterMap_cons]

lemma mem_packetPoints {p : RawPacket} {q : ℚ × ℚ} :
    q ∈ packetPoints p ↔
      ∃ i, i < p.raws.length ∧ 10 < sampleDist p i ∧
        q = (pointAngle p i, sampleDist p i) := by
  simp only [packetPoints, List.mem_filterMap, List.mem_range]
  constructor
  · rintro ⟨i, hi, hf⟩
    by_cases h : 10 < sampleDist p i
    · rw [if_pos h] at hf
      exact ⟨i, hi, h, (Option.some_injective _ hf).symm⟩
    · rw [if_neg h] at hf
      exact absurd hf (by simp)
  · rintro ⟨i, hi, h, rfl⟩
    exact ⟨i, hi, by rw [if_pos h]⟩

lemma angleFSA_nonneg (p : RawPacket) : 0 ≤ angleFSA p := by
  unfold angleFSA; positivity

lemma angleLSA_nonneg (p : RawPacket) : 0 ≤ angleLSA p := by
  unfold angleLSA; positivity

lemma angleDiff_nonneg (p : RawPacket) (hf : angleFSA p < 360) :
    0 ≤ angleDiff p := by
  unfold angleDiff
  have h0 := angleLSA_nonneg p
  by_cases h : angleLSA p - angleFSA p < 0
  · rw [if_pos h]; linarith
  · rw [if_neg h]; linarith [not_lt.mp h]

lemma angleDiff_lt (p : RawPacket) (hl : angleLSA p < 360) :
    angleDiff p < 360 := by
  unfold angleDiff
  have h0 := angleFSA_nonneg p
  by_cases h : angleLSA p - angleFSA p < 0
  · rw [if_pos h]; linarith
  · rw [if_neg h]; linarith

lemma interpAngle_bounds (p : RawPacket) (i : ℕ) (hi : i < p.raws.length)
    (hf : angleFSA p < 360) :
    angleFSA p ≤ interpAngle p i ∧
    interpAngle p i ≤ angleFSA p + angleDiff p := by
  unfold interpAngle
  by_cases hn : 1 < p.raws.length
  · rw [if_pos hn]
    have hd0 := angleDiff_nonneg p hf
    have hden : (0 : ℚ) < (p.raws.length : ℚ) - 1 := by
      have h2 : (2 : ℚ) ≤ (p.raws.length : ℚ) := by exact_mod_cast hn
      linarith
    have hicast : (i : ℚ) ≤ (p.raws.length : ℚ) - 1 := by
      have h1 : (i : ℚ) + 1 ≤ (p.raws.length : ℚ) := by exact_mod_cast hi
      linarith
    have h1 : 0 ≤ (angleDiff p / ((p.raws.length : ℚ) - 1)) * i := by positivity
    have h2 : (angleDiff p / ((p.raws.length : ℚ) - 1)) * i ≤ angleDiff p := by
      rw [div_mul_eq_mul_div, div_le_iff₀ hden]
      have h3 := mul_le_mul_of_nonneg_left hicast hd0
      linarith
    constructor <;> linarith
  · rw [if_neg hn]
    exact ⟨le_refl _, by linarith [angleDiff_nonneg p hf]⟩

lemma pointAngle_range (p : RawPacket) (i : ℕ) (hi : i < p.raws.length)
    (hf : angleFSA p < 360) (hl : angleLSA p < 360) :
    0 ≤ pointAngle p i ∧ pointAngle p i < 360 := by
  obtain ⟨hlo, hhi⟩ := interpAngle_bounds p i hi hf
  have h0 := angleFSA_nonneg p
  have hdlt := angleDiff_lt p hl
  unfold pointAngle wrapAngle
  by_cases h : (360 : ℚ) ≤ interpAngle p i
  · rw [if_pos h]
    constructor <;> linarith
  · rw [if_neg h]
    have := not_le.mp h
    constructor <;> linarith

lemma interpAngle_strictMono (p : RawPacket) (hf : angleFSA p < 360)
    (hc : angleLSA p < angleFSA p)
    (i j : ℕ) (hij : i < j) (hj : j < p.raws.length) :
    interpAngle p i < interpAngle p j := by
  have hn : 1 < p.raws.length := by omega
  have hd : 0 < angleDiff p := by
    unfold angleDiff
    have h1 : angleLSA p - angleFSA p < 0 := by linarith
    rw [if_pos h1]
    have h0 := angleLSA_nonneg p
    linarith
  unfold interpAngle
  rw [if_pos hn, if_pos hn]
  have hden : (0 : ℚ) < (p.raws.length : ℚ) - 1 := by
    have h2 : (2 : ℚ) ≤ (p.raws.length : ℚ) := by exact_mod_cast hn
    linarith
  have hij' : (i : ℚ) < (j : ℚ) := by exact_mod_cast hij
  have hpos : 0 < angleDiff p / ((p.raws.length : ℚ) - 1) := by positivity
  have := mul_lt_mul_of_pos_left hij' hpos
  linarith

/-- C8: a sample of a decoded packet is emitted exactly when its decoded
distance exceeds the 10-unit noise floor: every emitted point has distance
above the floor, and the point list holds exactly the surviving samples. -/
theorem noise_floor_discard (p : RawPacket) :
    (∀ q ∈ packetPoints p, 10 < q.2) ∧
    (∀ q : ℚ × ℚ, q ∈ packetPoints p ↔
      ∃ i, i < p.raws.length ∧ 10 < sampleDist p i ∧
        q = (pointAngle p i, sampleDist p i)) := by
  constructor
  · intro q hq
    obtain ⟨i, -, h, rfl⟩ := mem_packetPoints.mp hq
    exact h
  · intro q
    exact mem_packetPoints

/-- Witness for C8: the sample with raw value 8 (decoded distance 2) of a
concrete packet is discarded. -/
theorem noise_floor_discard_witness :
    ((0 : ℚ), (2 : ℚ)) ∉ packetPoints ⟨0, 0, [8, 100]⟩ :=
  fun h => absurd ((noise_floor_discard ⟨0, 0, [8, 100]⟩).1 _ h) (by norm_num)

/-- C7 (amended): every emitted point's angle is the linear interpolation
between the decoded start and end angles by sample index followed by the
single wrap step; when both decoded endpoint angles lie below 360 every
emitted angle lies in [0, 360), and for a span crossing 0 (end angle below
start angle) the pre-wrap interpolated angles strictly increase with the
sample index; the packet with start angle 350 and end angle 10 decodes as
in the specification example. -/
theorem packet_angles_interpolation (p : RawPacket) :
    (∀ q ∈ packetPoints p, ∃ i, i < p.raws.length ∧
        q.1 = wrapAngle (interpAngle p i) ∧ q.2 = sampleDist p i) ∧
    (angleFSA p < 360 → angleLSA p < 360 →
        ∀ q ∈ packetPoints p, 0 ≤ q.1 ∧ q.1 < 360) ∧
    (angleFSA p < 360 → angleLSA p < 360 → angleLSA p < angleFSA p →
        ∀ i j : ℕ, i < j → j < p.raws.length →
          interpAngle p i < interpAngle p j) ∧
    packetPoints ⟨44800, 1280, [100, 100, 100, 100]⟩ =
      [(350, 25), (1070/3, 25), (10/3, 25), (10, 25)] := by
  refine ⟨?_, ?_, ?_, ?_⟩
  · intro q hq
    obtain ⟨i, hi, h, rfl⟩ := mem_packetPoints.mp hq
    exact ⟨i, hi, rfl, rfl⟩
  · intro hf hl q hq
    obtain ⟨i, hi, h, rfl⟩ := mem_packetPoints.mp hq
    exact pointAngle_range p i hi hf hl
  · intro hf hl hc i j hij hj
    exact interpAngle_strictMono p hf hc i j hij hj
  · exact packetPoints_crossing_example

/-- Witness for C7 at the crossing packet with start angle 350 and end
angle 10: the emitted wrapped angle 10/3 lies in [0, 360) and the pre-wrap
angles of samples 0 and 1 increase. -/
theorem packet_angles_interpolation_witness :
    (0 ≤ (10/3 : ℚ) ∧ (10/3 : ℚ) < 360) ∧
    interpAngle ⟨44800, 1280, [100, 100, 100, 100]⟩ 0 <
      interpAngle ⟨44800, 1280, [100, 100, 100, 100]⟩ 1 := by
  constructor
  · refine (packet_angles_interpolation ⟨44800, 1280, [100, 100, 100, 100]⟩).2.1
      (by norm_num [angleFSA]) (by norm_num [angleLSA]) (10/3, 25) ?_
    rw [packetPoints_crossing_example]
    norm_num
  · exact (packet_angles_interpolation ⟨44800, 1280, [100, 100, 100, 100]⟩).2.2.1
      (by norm_num [angleFSA]) (by norm_num [angleLSA])
      (by norm_num [angleFSA, angleLSA]) 0 1 (by norm_num) (by norm_num)

/-- Counterexample to C7 as stated: the decoder accepts angle codes whose
decoded value reaches 360 and beyond, and there the single wrap step is not
enough: this packet emits a point at angle 400, outside [0, 360). -/
theorem packet_angle_wrap_counterexample :
    packetPoints ⟨64000, 51200, [100, 100]⟩ = [(140, 25), (400, 25)] ∧
    ¬ ((400 : ℚ) < 360) := by
  constructor
  · norm_num [packetPoints, sampleDist, pointAngle, interpAngle, angleFSA,
      angleLSA, angleDiff, wrapAngle, List.range_succ, List.getD, List.filterMap_cons]
  · norm_num

lemma safetyStep_some_cases (b : ℚ) (p : Int × ℚ) :
    (safetyStep (some b) p = some b ∧
      (0 < p.2 → frontCone p.1 = true → b ≤ p.2)) ∨
    (safetyStep (some b) p = some p.2 ∧ p.2 < b ∧ 0 < p.2 ∧
      frontCone p.1 = true) := by
  unfold safetyStep
  by_cases h0 : p.2 ≤ 0
  · left
    rw [if_pos h0]
    exact ⟨rfl, fun h0' _ => absurd h0 (not_le.mpr h0')⟩
  · rw [if_neg h0]
    by_cases hc : frontCone p.1 = true
    · rw [if_pos hc]
      by_cases hlt : p.2 < b
      · right
        exact ⟨by simp [hlt], hlt, lt_of_not_le h0, hc⟩
      · left
        exact ⟨by simp [hlt], fun _ _ => not_lt.mp hlt⟩
    · left
      rw [if_neg hc]
      exact ⟨rfl, fun _ hc' => absurd hc' hc⟩

lemma safetyStep_none_cases (p : Int × ℚ) :
    safetyStep none p = none ∨
    (safetyStep none p = some p.2 ∧ 0 < p.2 ∧ frontCone p.1 = true) := by
  unfold safetyStep
  by_cases h0 : p.2 ≤ 0
  · left
    rw [if_pos h0]
  · rw [if_neg h0]
    by_cases hc : frontCone p.1 = true
    · right
      exact ⟨by simp [hc], lt_of_not_le h0, hc⟩
    · left
      rw [if_neg hc]

lemma safetyStep_none_valid (p : Int × ℚ) (h0 : 0 < p.2)
    (hc : frontCone p.1 = true) : safetyStep none p = some p.2 := by
  unfold safetyStep
  rw [if_neg (not_le.mpr h0), if_pos hc]

lemma safetyFold_some (l : List (Int × ℚ)) (b : ℚ) :
    ∃ m, l.foldl safetyStep (some b) = some m ∧ m ≤ b := by
  induction l generalizing b with
  | nil => exact ⟨b, rfl, le_refl b⟩
  | cons p l ih =>
      rw [List.foldl_cons]
      rcases safetyStep_some_cases b p with ⟨h, -⟩ | ⟨h, hlt, -, -⟩
      · rw [h]
        exact ih b
      · rw [h]
        obtain ⟨m, hm, hle⟩ := ih p.2
        exact ⟨m, hm, le_trans hle (le_of_lt hlt)⟩

lemma safetyFold_le (l : List (Int × ℚ)) :
    ∀ (acc : Option ℚ) (p : Int × ℚ), p ∈ l → 0 < p.2 → frontCone p.1 = true →
      ∃ m, l.foldl safetyStep acc = some m ∧ m ≤ p.2 := by
  induction l with
  | nil =>
      intro acc p hp
      exact absurd hp (List.not_mem_nil p)
  | cons q l ih =>
      intro acc p hp h0 hc
      rw [List.foldl_cons]
      rcases List.mem_cons.mp hp with rfl | hmem
      · rcases acc with - | b
        · rw [safetyStep_none_valid p h0 hc]
          exact safetyFold_some l p.2
        · rcases safetyStep_some_cases b p with ⟨h, hb⟩ | ⟨h, -, -, -⟩
          · rw [h]
            obtain ⟨m, hm, hle⟩ := safetyFold_some l b
            exact ⟨m, hm, le_trans hle (hb h0 hc)⟩
          · rw [h]
            exact safetyFold_some l p.2
      · exact ih (safetyStep acc q) p hmem h0 hc

lemma safetyFold_attain (l : List (Int × ℚ)) :
    ∀ (acc : Option ℚ) (m : ℚ), l.foldl safetyStep acc = some m →
      acc = some m ∨ ∃ p ∈ l, 0 < p.2 ∧ frontCone p.1 = true ∧ p.2 = m := by
  induction l with
  | nil =>
      intro acc m h
      exact Or.inl h
  | cons q l ih =>
      intro acc m h
      rw [List.foldl_cons] at h
      rcases ih (safetyStep acc q) m h with hacc | ⟨p, hp, h0, hc, he⟩
      · rcases acc with - | b
        · rcases safetyStep_none_cases q with h1 | ⟨h1, h0, hc⟩
          · rw [h1] at hacc
            exact absurd hacc (by simp)
          · rw [h1] at hacc
            exact Or.inr ⟨q, List.mem_cons_self q l, h0, hc, Option.some.inj hacc⟩
        · rcases safetyStep_some_cases b q with ⟨h1, -⟩ | ⟨h1, -, h0, hc⟩
          · rw [h1] at hacc
            exact Or.inl hacc
          · rw [h1] at hacc
            exact Or.inr ⟨q, List.mem_cons_self q l, h0, hc, Option.some.inj hacc⟩
      · exact Or.inr ⟨p, List.mem_cons_of_mem q hp, h0, hc, he⟩

/-- C1 (amended): with the front cone as implemented by check_safety —
angles strictly below 30 degrees or strictly above 330 degrees, a width of
60 degrees rather than the 30 degrees the specification states — a
MOVE_FORWARD proposal is replaced with STOP and vetoed whenever some valid
front-cone point lies strictly below 150 mm, and passes through unchanged
whenever every valid front-cone point is at least 150 mm away. -/
theorem forward_veto_front_cone (scan : List (Int × ℚ)) :
    ((∃ p ∈ scan, 0 < p.2 ∧ frontCone p.1 = true ∧ p.2 < 150) →
      interceptCommand (checkSafety scan 150) CmdKind.MOVE_FORWARD =
        (CmdKind.STOP, true)) ∧
    ((∀ p ∈ scan, 0 < p.2 → frontCone p.1 = true → 150 ≤ p.2) →
      interceptCommand (checkSafety scan 150) CmdKind.MOVE_FORWARD =
        (CmdKind.MOVE_FORWARD, false)) := by
  constructor
  · rintro ⟨p, hp, h0, hc, hlt⟩
    obtain ⟨m, hm, hle⟩ := safetyFold_le scan none p hp h0 hc
    have hne : scan.isEmpty = false := by
      cases scan with
      | nil => exact absurd hp (List.not_mem_nil p)
      | cons q l => rfl
    have hm' : minFrontDist scan = some m := hm
    have hsafe : checkSafety scan 150 = false := by
      simp only [checkSafety, hne, Bool.false_eq_true, if_false, hm',
        decide_eq_false_iff_not, not_le]
      linarith
    simp [interceptCommand, hsafe]
  · intro hall
    by_cases hemp : scan.isEmpty
    · have hsafe : checkSafety scan 150 = true := by
        simp [checkSafety, hemp]
      simp [interceptCommand, hsafe]
    · rcases hmf : minFrontDist scan with - | m
      · have hsafe : checkSafety scan 150 = true := by
          simp [checkSafety, hemp, hmf]
        simp [interceptCommand, hsafe]
      · rcases safetyFold_attain scan none m hmf with h | ⟨p, hp, h0, hc, he⟩
        · exact absurd h (by simp)
        · have h150 : (150 : ℚ) ≤ m := he ▸ hall p hp h0 hc
          have hsafe : checkSafety scan 150 = true := by
            simp [checkSafety, hemp, hmf, h150]
          simp [interceptCommand, hsafe]

/-- Witness for C1 at concrete scans: the valid front point at 100 mm
forces a veto, the valid front point at 200 mm lets MOVE_FORWARD pass. -/
theorem forward_veto_front_cone_witness :
    interceptCommand (checkSafety [((0 : ℤ), (100 : ℚ))] 150)
        CmdKind.MOVE_FORWARD = (CmdKind.STOP, true) ∧
    interceptCommand (checkSafety [((0 : ℤ), (200 : ℚ))] 150)
        CmdKind.MOVE_FORWARD = (CmdKind.MOVE_FORWARD, false) := by
  constructor
  · exact (forward_veto_front_cone [((0 : ℤ), (100 : ℚ))]).1
      ⟨(0, 100), by simp, by norm_num, by decide, by norm_num⟩
  · refine (forward_veto_front_cone [((0 : ℤ), (200 : ℚ))]).2 ?_
    intro p hp h0 hc
    simp only [List.mem_singleton] at hp
    subst hp
    norm_num

/-- Counterexample to C1 as stated: the scan holding the single point at
angle 20 at 120 mm has no point at all in the ±15 degree front cone the
specification describes (so that cone's minimum is vacuously at least
150 mm), yet check_safety vetoes MOVE_FORWARD, because the implemented
cone is ±30 degrees. -/
theorem forward_veto_cone_counterexample :
    (∀ p ∈ [((20 : ℤ), (120 : ℚ))], ¬ (p.1 ≤ 15 ∨ 345 ≤ p.1)) ∧
    interceptCommand (checkSafety [((20 : ℤ), (120 : ℚ))] 150)
        CmdKind.MOVE_FORWARD = (CmdKind.STOP, true) := by
  constructor
  · intro p hp
    simp only [List.mem_singleton] at hp
    subst hp
    norm_num
  · have hm : minFrontDist [((20 : ℤ), (120 : ℚ))] = some 120 := by
      simp only [minFrontDist, List.foldl_cons, List.foldl_nil]
      rw [safetyStep_none_valid (20, 120) (by norm_num) (by decide)]
    have hsafe : checkSafety [((20 : ℤ), (120 : ℚ))] 150 = false := by
      simp [checkSafety, hm]
      norm_num
    simp [interceptCommand, hsafe]

/-- process_lidar_data of agv_client.py: keep entries with distance
strictly between 100 and 8000. -/
def processLidarData (scan : List (Int × ℚ)) : List (Int × ℚ) :=
  scan.filter (fun p => decide (100 < p.2 ∧ p.2 < 8000))

/-- C10: the per-cycle filter keeps exactly the entries with distance
strictly between 100 mm and 8000 mm; when every front-cone point of a
scan lies at 100 mm or below or at 8000 mm or above, the filtered scan has
no front-cone point, check_safety reports safe, and MOVE_FORWARD is not
vetoed. -/
theorem cycle_filter_front_clear (scan : List (Int × ℚ)) :
    (∀ p : Int × ℚ, p ∈ processLidarData scan ↔
        p ∈ scan ∧ 100 < p.2 ∧ p.2 < 8000) ∧
    ((∀ p ∈ scan, frontCone p.1 = true → p.2 ≤ 100 ∨ 8000 ≤ p.2) →
      (∀ p ∈ processLidarData scan, frontCone p.1 = false) ∧
      checkSafety (processLidarData scan) 150 = true ∧
      interceptCommand (checkSafety (processLidarData scan) 150)
          CmdKind.MOVE_FORWARD = (CmdKind.MOVE_FORWARD, false)) := by
  have hmem : ∀ p : Int × ℚ, p ∈ processLidarData scan ↔
      p ∈ scan ∧ 100 < p.2 ∧ p.2 < 8000 := by
    intro p
    simp [processLidarData, List.mem_filter]
  refine ⟨hmem, ?_⟩
  intro hall
  have hfront : ∀ p ∈ processLidarData scan, frontCone p.1 = false := by
    intro p hp
    obtain ⟨hmem', h100, h8000⟩ := (hmem p).mp hp
    cases hfc : frontCone p.1
    · rfl
    · rcases hall p hmem' hfc with h | h <;> linarith
  have hsafe : checkSafety (processLidarData scan) 150 = true := by
    rcases hmf : minFrontDist (processLidarData scan) with - | m
    · by_cases hemp : (processLidarData scan).isEmpty <;>
        simp [checkSafety, hemp, hmf]
    · rcases safetyFold_attain _ none m hmf with h | ⟨p, hp, h0, hc, he⟩
      · exact absurd h (by simp)
      · rw [hfront p hp] at hc
        exact absurd hc (by simp)
  refine ⟨hfront, hsafe, ?_⟩
  simp [interceptCommand, hsafe]

/-- Witness for C10 at a concrete scan whose front points sit at 50 mm and
9000 mm: the filtered scan is judged safe. -/
theorem cycle_filter_front_clear_witness :
    checkSafety (processLidarData
      [((0 : ℤ), (50 : ℚ)), ((10 : ℤ), (9000 : ℚ)), ((180 : ℤ), (500 : ℚ))])
      150 = true := by
  refine ((cycle_filter_front_clear _).2 ?_).2.1
  intro p hp hc
  simp only [List.mem_cons, List.not_mem_nil, or_false] at hp
  rcases hp with rfl | rfl | rfl
  · left
    norm_num
  · right
    norm_num
  · exact absurd hc (by decide)

/-- Python int() applied to a rational: truncation toward zero. -/
def pyInt (q : ℚ) : ℤ := if 0 ≤ q then ⌊q⌋ else ⌈q⌉

/-- The live angle-to-distance dictionary latest_scan of LidarDriver,
modelled as a function from integer keys to optional distances. -/
abbrev ScanMap := ℤ → Option ℚ

/-- The dictionary before any packet arrives. -/
def emptyScan : ScanMap := fun _ => none

/-- One ingestion step of _update_loop: keep only positive distances and
store under the int-truncated angle, overwriting any previous entry. -/
def ingestPoint (m : ScanMap) (q : ℚ × ℚ) : ScanMap :=
  if 0 < q.2 then Function.update m (pyInt q.1) (some q.2) else m

/-- Ingestion of a packet's point list, in order. -/
def ingestPoints (m : ScanMap) (pts : List (ℚ × ℚ)) : ScanMap :=
  pts.foldl ingestPoint m

/-- Live map after the update loop has decoded and ingested a sequence of
packets, starting from the empty dictionary. -/
def mapAfter (packets : List RawPacket) : ScanMap :=
  packets.foldl (fun m p => ingestPoints m (packetPoints p)) emptyScan

lemma ingestPoint_floor {m : ScanMap} (hm : ∀ k d, m k = some d → 10 < d)
    {q : ℚ × ℚ} (hq : 10 < q.2) :
    ∀ k d, ingestPoint m q k = some d → 10 < d := by
  intro k d h
  unfold ingestPoint at h
  by_cases h0 : 0 < q.2
  · rw [if_pos h0] at h
    rcases eq_or_ne k (pyInt q.1) with rfl | hne
    · rw [Function.update_same] at h
      have h2 := Option.some.inj h
      rw [← h2]
      exact hq
    · rw [Function.update_noteq hne] at h
      exact hm k d h
  · rw [if_neg h0] at h
    exact hm k d h

lemma ingestPoints_floor :
    ∀ (pts : List (ℚ × ℚ)) (m : ScanMap),
      (∀ k d, m k = some d → 10 < d) →
      (∀ q ∈ pts, 10 < q.2) →
      ∀ k d, ingestPoints m pts k = some d → 10 < d := by
  intro pts
  induction pts with
  | nil => intro m hm _; exact hm
  | cons q pts ih =>
      intro m hm hpts
      simp only [ingestPoints, List.foldl_cons] at ih ⊢
      exact ih (ingestPoint m q)
        (ingestPoint_floor hm (hpts q (List.mem_cons_self q pts)))
        (fun r hr => hpts r (List.mem_cons_of_mem q hr))

lemma mapAfter_floor :
    ∀ (packets : List RawPacket) (m : ScanMap),
      (∀ k d, m k = some d → 10 < d) →
      ∀ k d,
        packets.foldl (fun m p => ingestPoints m (packetPoints p)) m k = some d →
        10 < d := by
  intro packets
  induction packets with
  | nil => intro m hm; exact hm
  | cons p packets ih =>
      intro m hm
      simp only [List.foldl_cons]
      refine ih _ (ingestPoints_floor (packetPoints p) m hm ?_)
      intro q hq
      obtain ⟨i, -, h10, rfl⟩ := mem_packetPoints.mp hq
      exact h10

/-- C3 (amended): after any sequence of decode-and-ingest steps, every
entry of the live angle-to-distance map has distance strictly above the
10-unit noise floor.  No upper bound on the distance is enforced; see the
counterexample for an entry above the sensor's 10000 mm maximum range. -/
theorem scan_map_above_noise_floor (packets : List RawPacket) (k : ℤ) (d : ℚ)
    (h : mapAfter packets k = some d) : 10 < d := by
  unfold mapAfter at h
  exact mapAfter_floor packets emptyScan (fun _ _ hk => by simp [emptyScan] at hk) k d h

/-- Witness for C3 at a concrete packet: the single entry of the resulting
map is above the noise floor. -/
theorem scan_map_above_noise_floor_witness :
    mapAfter [⟨0, 0, [100]⟩] 0 = some 25 ∧ (10 : ℚ) < 25 := by
  have hmap : mapAfter [⟨0, 0, [100]⟩] 0 = some 25 := by
    norm_num [mapAfter, ingestPoints, ingestPoint, emptyScan, packetPoints,
      sampleDist, pointAngle, interpAngle, angleFSA, angleLSA, angleDiff,
      wrapAngle, pyInt, List.range_succ, List.getD, List.filterMap_cons,
      Function.update_same]
  exact ⟨hmap, scan_map_above_noise_floor [⟨0, 0, [100]⟩] 0 25 hmap⟩

/-- Counterexample to C3 as stated: a raw sample of 65535 decodes to
16383.75 mm, far above the sensor's 10000 mm maximum valid range, and is
stored in the live map unfiltered. -/
theorem scan_map_range_counterexample :
    mapAfter [⟨0, 0, [65535]⟩] 0 = some (65535/4) ∧
    (10000 : ℚ) < 65535/4 := by
  constructor
  · norm_num [mapAfter, ingestPoints, ingestPoint, emptyScan, packetPoints,
      sampleDist, pointAngle, interpAngle, angleFSA, angleLSA, angleDiff,
      wrapAngle, pyInt, List.range_succ, List.getD, List.filterMap_cons,
      Function.update_same]
  · norm_num

/-- C9 (amended): each ingested point is stored under its angle truncated
with Python int() (the floor for the decoder's nonnegative angles), no
other bucket changes, and a later point whose angle truncates to the same
bucket overwrites the earlier distance. -/
theorem ingest_truncated_key (m : ScanMap) (a₁ a₂ d₁ d₂ : ℚ)
    (h₁ : 0 < d₁) (h₂ : 0 < d₂) :
    ingestPoints m [(a₁, d₁)] (pyInt a₁) = some d₁ ∧
    (∀ k, k ≠ pyInt a₁ → ingestPoints m [(a₁, d₁)] k = m k) ∧
    (pyInt a₁ = pyInt a₂ →
      ingestPoints m [(a₁, d₁), (a₂, d₂)] (pyInt a₂) = some d₂) := by
  refine ⟨?_, ?_, ?_⟩
  · simp [ingestPoints, ingestPoint, h₁]
  · intro k hk
    simp [ingestPoints, ingestPoint, h₁, Function.update_noteq hk]
  · intro he
    simp [ingestPoints, ingestPoint, h₁, h₂, he]

/-- Witness for C9 at a concrete ingestion: the second write to bucket 10
wins. -/
theorem ingest_truncated_key_witness :
    ingestPoints emptyScan [(21/2, 300), (107/10, 500)] (pyInt (107/10)) =
      some 500 := by
  refine (ingest_truncated_key emptyScan (21/2) (107/10) 300 500
    (by norm_num) (by norm_num)).2.2 ?_
  norm_num [pyInt]

/-- Counterexample to C9 as stated: the point at angle 10.7 is stored
under bucket 10, not under the nearest integer degree 11. -/
theorem ingest_round_counterexample :
    ingestPoints emptyScan [(107/10, 500)] 10 = some 500 ∧
    ingestPoints emptyScan [(107/10, 500)] 11 = none ∧
    round ((107 : ℚ)/10) = 11 := by
  have hkey : pyInt (107/10) = 10 := by
    norm_num [pyInt]
  refine ⟨?_, ?_, ?_⟩
  · simp [ingestPoints, ingestPoint, hkey, Function.update_same]
  · simp [ingestPoints, ingestPoint, hkey, emptyScan, Function.update_apply]
  · rw [round_eq]
    norm_num

/-- Python modulo by 360 on rationals: the remainder with a result in
[0, 360). -/
def pymod360 (x : ℚ) : ℚ := x - 360 * ⌊x / 360⌋

/-- Wrap-aware sector-interval test of get_sector_info: the plain interval
when start is below end, the two wrapped arms otherwise. -/
def inSector (startA endA a : ℚ) : Bool :=
  if startA < endA then decide (startA ≤ a ∧ a ≤ endA)
  else decide (startA ≤ a ∨ a ≤ endA)

/-- One iteration of get_sector_info's loop: skip distances at or below 10,
track the minimum distance paired with its angle over the sector. -/
def sectorStep (startA endA : ℚ) (acc : Option (ℚ × ℚ)) (p : ℚ × ℚ) :
    Option (ℚ × ℚ) :=
  if p.2 ≤ 10 then acc
  else if inSector startA endA p.1 then
    match acc with
    | none => some (p.2, p.1)
    | some m => if p.2 < m.1 then some (p.2, p.1) else acc
  else acc

/-- get_sector_info of check_front_dist.py: the minimum distance and its
angle over the sector centered at center with the given width, or none
when no valid point lies in the sector. -/
def getSectorInfo (scan : List (ℚ × ℚ)) (center width : ℚ) :
    Option (ℚ × ℚ) :=
  scan.foldl
    (sectorStep (pymod360 (center - width / 2)) (pymod360 (center + width / 2)))
    none

lemma pymod360_nonneg (x : ℚ) : 0 ≤ pymod360 x := by
  unfold pymod360
  have h := Int.floor_le (x / 360)
  have h2 : (360 : ℚ) * ⌊x / 360⌋ ≤ 360 * (x / 360) :=
    mul_le_mul_of_nonneg_left h (by norm_num)
  have h3 : (360 : ℚ) * (x / 360) = x := by ring
  linarith

lemma pymod360_lt (x : ℚ) : pymod360 x < 360 := by
  unfold pymod360
  have h := Int.lt_floor_add_one (x / 360)
  have h2 : (360 : ℚ) * (x / 360) < 360 * ((⌊x / 360⌋ : ℚ) + 1) :=
    mul_lt_mul_of_pos_left h (by norm_num)
  have h3 : (360 : ℚ) * (x / 360) = x := by ring
  linarith

lemma pymod360_eq_self {x : ℚ} (h0 : 0 ≤ x) (h1 : x < 360) :
    pymod360 x = x := by
  unfold pymod360
  have hf : ⌊x / 360⌋ = 0 := by
    rw [Int.floor_eq_zero_iff, Set.mem_Ico]
    constructor
    · positivity
    · rw [div_lt_one (by norm_num : (0 : ℚ) < 360)]
      exact h1
  rw [hf]
  push_cast
  ring

lemma pymod360_add_int (x : ℚ) (k : ℤ) :
    pymod360 (x + 360 * k) = pymod360 x := by
  unfold pymod360
  have h : (x + 360 * k) / 360 = x / 360 + k := by
    field_simp
    ring
  rw [h, Int.floor_add_int]
  push_cast
  ring

lemma pymod360_of_neg {y : ℚ} (h0 : -360 ≤ y) (h1 : y < 0) :
    pymod360 y = y + 360 := by
  have h2 := pymod360_add_int y 1
  have h3 : y + 360 * ((1 : ℤ) : ℚ) = y + 360 := by push_cast; ring
  rw [h3] at h2
  rw [← h2]
  exact pymod360_eq_self (by linarith) (by linarith)

lemma pymod360_of_ge {y : ℚ} (h0 : 360 ≤ y) (h1 : y < 720) :
    pymod360 y = y - 360 := by
  have h2 := pymod360_add_int (y - 360) 1
  have h3 : (y - 360) + 360 * ((1 : ℤ) : ℚ) = y := by push_cast; ring
  rw [h3] at h2
  rw [h2]
  exact pymod360_eq_self (by linarith) (by linarith)

lemma inSector_iff (c w a : ℚ) (hw0 : 0 < w) (hw1 : w < 360)
    (ha0 : 0 ≤ a) (ha1 : a < 360) :
    inSector (pymod360 (c - w / 2)) (pymod360 (c + w / 2)) a = true ↔
      pymod360 (a - (c - w / 2)) ≤ w := by
  set s := pymod360 (c - w / 2) with hs
  have hs0 : 0 ≤ s := pymod360_nonneg _
  have hs1 : s < 360 := pymod360_lt _
  obtain ⟨k, hk⟩ : ∃ k : ℤ, c - w / 2 = s + 360 * k := by
    refine ⟨⌊(c - w / 2) / 360⌋, ?_⟩
    rw [hs]
    unfold pymod360
    ring
  have hrw : pymod360 (a - (c - w / 2)) = pymod360 (a - s) := by
    rw [hk]
    have h4 : a - (s + 360 * (k : ℚ)) = (a - s) + 360 * ((-k : ℤ) : ℚ) := by
      push_cast
      ring
    rw [h4, pymod360_add_int]
  have he : pymod360 (c + w / 2) = pymod360 (s + w) := by
    have h2 : c + w / 2 = (s + w) + 360 * (k : ℚ) := by linarith
    rw [h2]
    exact pymod360_add_int (s + w) k
  rw [hrw]
  by_cases hcase : s + w < 360
  · rw [he, pymod360_eq_self (by linarith) hcase]
    unfold inSector
    rw [if_pos (by linarith : s < s + w), decide_eq_true_iff]
    by_cases ha : s ≤ a
    · rw [pymod360_eq_self (by linarith) (by linarith : a - s < 360)]
      constructor
      · rintro ⟨-, h⟩
        linarith
      · intro h
        exact ⟨ha, by linarith⟩
    · rw [pymod360_of_neg (by linarith) (by linarith : a - s < 0)]
      constructor
      · rintro ⟨h1, -⟩
        exact absurd h1 ha
      · intro h
        exact absurd ha (by push_neg; linarith)
  · rw [he, pymod360_of_ge (by linarith) (by linarith : s + w < 720)]
    unfold inSector
    rw [if_neg (by push_neg; linarith : ¬ s < s + w - 360), decide_eq_true_iff]
    by_cases ha : s ≤ a
    · rw [pymod360_eq_self (by linarith) (by linarith : a - s < 360)]
      constructor
      · intro _
        linarith
      · intro _
        exact Or.inl ha
    · rw [pymod360_of_neg (by linarith) (by linarith : a - s < 0)]
      constructor
      · rintro (h1 | h2)
        · exact absurd h1 ha
        · linarith
      · intro h
        exact Or.inr (by linarith)

lemma sectorStep_some_cases (s e : ℚ) (b : ℚ × ℚ) (p : ℚ × ℚ) :
    (sectorStep s e (some b) p = some b ∧
      (10 < p.2 → inSector s e p.1 = true → b.1 ≤ p.2)) ∨
    (sectorStep s e (some b) p = some (p.2, p.1) ∧ p.2 < b.1 ∧ 10 < p.2 ∧
      inSector s e p.1 = true) := by
  unfold sectorStep
  by_cases h0 : p.2 ≤ 10
  · left
    rw [if_pos h0]
    exact ⟨rfl, fun h0' _ => absurd h0 (not_le.mpr h0')⟩
  · rw [if_neg h0]
    by_cases hc : inSector s e p.1 = true
    · rw [if_pos hc]
      by_cases hlt : p.2 < b.1
      · right
        exact ⟨by simp [hlt], hlt, lt_of_not_le h0, hc⟩
      · left
        exact ⟨by simp [hlt], fun _ _ => not_lt.mp hlt⟩
    · left
      rw [if_neg hc]
      exact ⟨rfl, fun _ hc' => absurd hc' hc⟩

lemma sectorStep_none_cases (s e : ℚ) (p : ℚ × ℚ) :
    sectorStep s e none p = none ∨
    (sectorStep s e none p = some (p.2, p.1) ∧ 10 < p.2 ∧
      inSector s e p.1 = true) := by
  unfold sectorStep
  by_cases h0 : p.2 ≤ 10
  · left
    rw [if_pos h0]
  · rw [if_neg h0]
    by_cases hc : inSector s e p.1 = true
    · right
      exact ⟨by simp [hc], lt_of_not_le h0, hc⟩
    · left
      rw [if_neg hc]

lemma sectorStep_none_valid (s e : ℚ) (p : ℚ × ℚ) (h0 : 10 < p.2)
    (hc : inSector s e p.1 = true) :
    sectorStep s e none p = some (p.2, p.1) := by
  unfold sectorStep
  rw [if_neg (not_le.mpr h0), if_pos hc]

lemma sectorFold_some (s e : ℚ) (l : List (ℚ × ℚ)) (b : ℚ × ℚ) :
    ∃ m : ℚ × ℚ, l.foldl (sectorStep s e) (some b) = some m ∧ m.1 ≤ b.1 := by
  induction l generalizing b with
  | nil => exact ⟨b, rfl, le_refl b.1⟩
  | cons p l ih =>
      rw [List.foldl_cons]
      rcases sectorStep_some_cases s e b p with ⟨h, -⟩ | ⟨h, hlt, -, -⟩
      · rw [h]
        exact ih b
      · rw [h]
        obtain ⟨m, hm, hle⟩ := ih (p.2, p.1)
        exact ⟨m, hm, le_trans hle (le_of_lt hlt)⟩

lemma sectorFold_le (s e : ℚ) (l : List (ℚ × ℚ)) :
    ∀ (acc : Option (ℚ × ℚ)) (p : ℚ × ℚ), p ∈ l → 10 < p.2 →
      inSector s e p.1 = true →
      ∃ m : ℚ × ℚ, l.foldl (sectorStep s e) acc = some m ∧ m.1 ≤ p.2 := by
  induction l with
  | nil =>
      intro acc p hp
      exact absurd hp (List.not_mem_nil p)
  | cons q l ih =>
      intro acc p hp h0 hc
      rw [List.foldl_cons]
      rcases List.mem_cons.mp hp with rfl | hmem
      · rcases acc with - | b
        · rw [sectorStep_none_valid s e p h0 hc]
          exact sectorFold_some s e l (p.2, p.1)
        · rcases sectorStep_some_cases s e b p with ⟨h, hb⟩ | ⟨h, -, -, -⟩
          · rw [h]
            obtain ⟨m, hm, hle⟩ := sectorFold_some s e l b
            exact ⟨m, hm, le_trans hle (hb h0 hc)⟩
          · rw [h]
            exact sectorFold_some s e l (p.2, p.1)
      · exact ih (sectorStep s e acc q) p hmem h0 hc

lemma sectorFold_attain (s e : ℚ) (l : List (ℚ × ℚ)) :
    ∀ (acc : Option (ℚ × ℚ)) (m : ℚ × ℚ), l.foldl (sectorStep s e) acc = some m →
      acc = some m ∨
      ∃ p ∈ l, 10 < p.2 ∧ inSector s e p.1 = true ∧ m = (p.2, p.1) := by
  induction l with
  | nil =>
      intro acc m h
      exact Or.inl h
  | cons q l ih =>
      intro acc m h
      rw [List.foldl_cons] at h
      rcases ih (sectorStep s e acc q) m h with hacc | ⟨p, hp, h0, hc, he⟩
      · rcases acc with - | b
        · rcases sectorStep_none_cases s e q with h1 | ⟨h1, h0, hc⟩
          · rw [h1] at hacc
            exact absurd hacc (by simp)
          · rw [h1] at hacc
            exact Or.inr ⟨q, List.mem_cons_self q l, h0, hc, (Option.some.inj hacc).symm⟩
        · rcases sectorStep_some_cases s e b q with ⟨h1, -⟩ | ⟨h1, -, h0, hc⟩
          · rw [h1] at hacc
            exact Or.inl hacc
          · rw [h1] at hacc
            exact Or.inr ⟨q, List.mem_cons_self q l, h0, hc, (Option.some.inj hacc).symm⟩
      · exact Or.inr ⟨p, List.mem_cons_of_mem q hp, h0, hc, he⟩

lemma sectorFold_none_of (s e : ℚ) :
    ∀ l : List (ℚ × ℚ), (∀ p ∈ l, 10 < p.2 → inSector s e p.1 = false) →
      l.foldl (sectorStep s e) none = none := by
  intro l
  induction l with
  | nil =>
      intro _
      rfl
  | cons q l ih =>
      intro hall
      rw [List.foldl_cons]
      have hstep : sectorStep s e none q = none := by
        unfold sectorStep
        by_cases h0 : q.2 ≤ 10
        · rw [if_pos h0]
        · rw [if_neg h0, hall q (List.mem_cons_self q l) (lt_of_not_le h0)]
          simp
      rw [hstep]
      exact ih (fun p hp => hall p (List.mem_cons_of_mem q hp))

lemma sectorFold_none_iff (s e : ℚ) (l : List (ℚ × ℚ)) :
    l.foldl (sectorStep s e) none = none ↔
      ∀ p ∈ l, 10 < p.2 → inSector s e p.1 = false := by
  constructor
  · intro h p hp h10
    cases hc : inSector s e p.1
    · rfl
    · obtain ⟨m, hm, -⟩ := sectorFold_le s e l none p hp h10 hc
      rw [hm] at h
      exact absurd h (by simp)
  · exact sectorFold_none_of s e l

/-- C6: get_sector_info returns the minimum distance over the valid points
of the sector, paired with the angle attaining it; sector membership
agrees with the arithmetic wrap-around reading of the interval
[center - width/2, center + width/2]; none is returned exactly when no
valid point lies in the sector; and on the specification's example scan
the query centered at 0 with width 30 returns (100, 355). -/
theorem sector_query_min (scan : List (ℚ × ℚ)) (center width : ℚ)
    (hw0 : 0 < width) (hw1 : width < 360)
    (hang : ∀ p ∈ scan, 0 ≤ p.1 ∧ p.1 < 360) :
    (getSectorInfo scan center width = none ↔
      ∀ p ∈ scan, 10 < p.2 →
        ¬ pymod360 (p.1 - (center - width / 2)) ≤ width) ∧
    (∀ d a, getSectorInfo scan center width = some (d, a) →
      (a, d) ∈ scan ∧ 10 < d ∧
      pymod360 (a - (center - width / 2)) ≤ width ∧
      ∀ p ∈ scan, 10 < p.2 →
        pymod360 (p.1 - (center - width / 2)) ≤ width → d ≤ p.2) ∧
    getSectorInfo [(5, 200), (355, 100), (180, 50)] 0 30 = some (100, 355) := by
  have hiff : ∀ p : ℚ × ℚ, p ∈ scan →
      (inSector (pymod360 (center - width / 2)) (pymod360 (center + width / 2))
          p.1 = true ↔
        pymod360 (p.1 - (center - width / 2)) ≤ width) := by
    intro p hp
    exact inSector_iff center width p.1 hw0 hw1 (hang p hp).1 (hang p hp).2
  refine ⟨?_, ?_, ?_⟩
  · unfold getSectorInfo
    rw [sectorFold_none_iff]
    constructor
    · intro h p hp h10 hsec
      rw [← hiff p hp] at hsec
      rw [h p hp h10] at hsec
      exact absurd hsec (by simp)
    · intro h p hp h10
      cases hc : inSector (pymod360 (center - width / 2))
          (pymod360 (center + width / 2)) p.1
      · rfl
      · exact absurd ((hiff p hp).mp hc) (h p hp h10)
  · intro d a hda
    unfold getSectorInfo at hda
    rcases sectorFold_attain _ _ scan none (d, a) hda with h | ⟨p, hp, h10, hc, he⟩
    · exact absurd h (by simp)
    · have hd : d = p.2 := congrArg Prod.fst he
      have ha : a = p.1 := congrArg Prod.snd he
      refine ⟨?_, ?_, ?_, ?_⟩
      · rw [ha, hd]
        exact Prod.mk.eta ▸ hp
      · rw [hd]
        exact h10
      · rw [ha]
        exact (hiff p hp).mp hc
      · intro q hq hq10 hqsec
        obtain ⟨m, hm, hle⟩ :=
          sectorFold_le _ _ scan none q hq hq10 ((hiff q hq).mpr hqsec)
        rw [hda] at hm
        have hmd : (d, a) = m := Option.some.inj hm
        rw [← hmd] at hle
        exact hle
  · have hs : pymod360 ((0 : ℚ) - 30 / 2) = 345 := by
      rw [show (0 : ℚ) - 30 / 2 = -15 by norm_num]
      rw [pymod360_of_neg (by norm_num) (by norm_num)]
      norm_num
    have he : pymod360 ((0 : ℚ) + 30 / 2) = 15 := by
      rw [show (0 : ℚ) + 30 / 2 = 15 by norm_num]
      exact pymod360_eq_self (by norm_num) (by norm_num)
    unfold getSectorInfo
    rw [hs, he]
    norm_num [sectorStep, inSector, List.foldl_cons, List.foldl_nil]

/-- Witness for C6: the specification's example query, obtained from the
main theorem with its hypotheses discharged. -/
theorem sector_query_min_witness :
    getSectorInfo [(5, 200), (355, 100), (180, 50)] 0 30 = some (100, 355) := by
  refine (sector_query_min [(5, 200), (355, 100), (180, 50)] 0 30
    (by norm_num) (by norm_num) ?_).2.2
  intro p hp
  simp only [List.mem_cons, List.not_mem_nil, or_false] at hp
  rcases hp with rfl | rfl | rfl <;> norm_num
theorem execute_command_burst_witness :
    executeCommand ⟨CmdKind.MOVE_FORWARD, 50, 1⟩ =
      [MotorCall.goAhead 50, MotorCall.stopCall] ∧
    executeCommand ⟨CmdKind.MOVE_FORWARD, 50, 0⟩ = [MotorCall.goAhead 50] ∧
    executeCommand ⟨CmdKind.STOP, 0, 0⟩ = [MotorCall.stopCall] := by
  refine ⟨?_, ?_, ?_⟩
  · obtain ⟨call, hc, -, -, hdur, -⟩ :=
      (execute_command_burst ⟨CmdKind.MOVE_FORWARD, 50, 1⟩).2 (by decide) (by decide)
    have hcall : call = MotorCall.goAhead 50 := by
      have := hc.symm
      simpa [dispatch] using this
    subst hcall
    exact hdur (by norm_num)
  · obtain ⟨call, hc, -, -, -, hdur⟩ :=
      (execute_command_burst ⟨CmdKind.MOVE_FORWARD, 50, 0⟩).2 (by decide) (by decide)
    have hcall : call = MotorCall.goAhead 50 := by
      have := hc.symm
      simpa [dispatch] using this
    subst hcall
    exact hdur (by norm_num)
  · exact (execute_command_burst ⟨CmdKind.STOP, 0, 0⟩).1 rfl

end Agv
